import Mathlib

/-!
Shallow embedding of `markdown-frontmatter` (`src/lib.rs`).

Documents are modelled as `List Char`; the Rust byte offsets become
character offsets (all delimiter and terminator characters are ASCII,
and no multi-byte UTF-8 character contains a `\n` or `\r` byte, so the
line structure is identical in both views).  Fallible operations return
`Except Error`.  The external serde decoders are modelled abstractly as
a two-stage `Decoder` (string-to-value = syntax stage, value-to-target =
shape stage), exactly the shape of the Rust decode pipeline.
-/

namespace MarkdownFrontmatter

/-- The `FrontmatterFormat` enum from the source: the closed set of formats. -/
inductive FrontmatterFormat where
  | Json
  | Toml
  | Yaml
deriving DecidableEq, Repr

/-- The method `FrontmatterFormat::delimiter`: (opening, closing) delimiter lines. -/
def FrontmatterFormat.delimiter : FrontmatterFormat → List Char × List Char
  | .Json => (['{'], ['}'])
  | .Toml => (['+', '+', '+'], ['+', '+', '+'])
  | .Yaml => (['-', '-', '-'], ['-', '-', '-'])

/-- The list `FrontmatterFormat::VARIANTS`, in the source's fixed priority order. -/
def FrontmatterFormat.VARIANTS : List FrontmatterFormat := [.Json, .Toml, .Yaml]

/-- The function `FrontmatterFormat::detect`: first line ↦ format, by exact full-line
equality against each opening delimiter, in `VARIANTS` order. -/
def FrontmatterFormat.detect (first_line : List Char) : Option FrontmatterFormat :=
  FrontmatterFormat.VARIANTS.find? (fun variant => first_line == variant.delimiter.1)

/-- The crate's `Error` type.  The serde error payloads are external
values carrying no information the claims need, so they are dropped. -/
inductive Error where
  | DisabledFormat (format : FrontmatterFormat)
  | AbsentClosingDelimiter (format : FrontmatterFormat)
  | InvalidYaml
  | InvalidJson
  | InvalidToml
  | DeserializeYaml
  | DeserializeJson
  | DeserializeToml
deriving DecidableEq, Repr

/-- The `LineSpan` record from the source: a line's start offset, the offset just
past its terminator, and its text (terminator excluded). -/
structure LineSpan where
  start : Nat
  next_start : Nat
  line : List Char
deriving DecidableEq, Repr

/-- A character that does not terminate a line (the loop condition
`bytes[i] != b'\n' && bytes[i] != b'\r'`). -/
def nonTerm (c : Char) : Bool := !(c == '\n' || c == '\r')

/-- Length of the line terminator at the head of the remaining buffer:
`\r\n` counts 2, a lone `\r` or `\n` counts 1, anything else 0.
This mirrors the terminator-consuming branch of `LineSpan::new`. -/
def termLen (l : List Char) : Nat :=
  match l with
  | [] => 0
  | c :: rest =>
    if c = '\r' then
      match rest with
      | d :: _ => if d = '\n' then 2 else 1
      | [] => 1
    else if c = '\n' then 1 else 0

/-- The text of the line starting at `pos`: characters up to the first
`\n` or `\r` (the `while` loop of `LineSpan::new`). -/
def lineOf (s : List Char) (pos : Nat) : List Char :=
  (s.drop pos).takeWhile nonTerm

/-- The start of the next line after the line starting at `pos`. -/
def nextOf (s : List Char) (pos : Nat) : Nat :=
  pos + (lineOf s pos).length + termLen (s.drop (pos + (lineOf s pos).length))

/-- The scanner loop of `LineSpan::new`, with explicit fuel.  Each
iteration strictly advances `pos`, so fuel `s.length` is exhaustive. -/
def lineSpansFuel : Nat → List Char → Nat → List LineSpan
  | 0, _, _ => []
  | fuel + 1, s, pos =>
    if pos < s.length then
      ⟨pos, nextOf s pos, lineOf s pos⟩ :: lineSpansFuel fuel s (nextOf s pos)
    else []

/-- The iterator `LineSpan::new`: the full sequence of line spans of a buffer. -/
def lineSpans (s : List Char) : List LineSpan := lineSpansFuel s.length s 0

/-- The suffix of the span sequence starting at offset `pos`. -/
def lineSpansAt (s : List Char) (pos : Nat) : List LineSpan :=
  lineSpansFuel (s.length - pos) s pos

/-- Rust `char::is_whitespace` (the Unicode White_Space property),
enumerated explicitly. -/
def isRustWhitespace (c : Char) : Bool :=
  decide ((9 ≤ c.toNat ∧ c.toNat ≤ 13) ∨ c.toNat = 32 ∨ c.toNat = 133 ∨ c.toNat = 160 ∨
    c.toNat = 5760 ∨ (8192 ≤ c.toNat ∧ c.toNat ≤ 8202) ∨ c.toNat = 8232 ∨ c.toNat = 8233 ∨
    c.toNat = 8239 ∨ c.toNat = 8287 ∨ c.toNat = 12288)

/-- Rust `str::trim_start`: drop leading whitespace characters. -/
def trimStart (s : List Char) : List Char := s.dropWhile isRustWhitespace

/-- The private `SplitFrontmatter(format, matter)` pair from the source. -/
structure SplitFrontmatter where
  format : FrontmatterFormat
  matter : List Char
deriving DecidableEq, Repr

/-- Rust slice `&s[a..b]` (panics in Rust when out of range; here the
total version used by `split`'s in-range accesses). -/
def strSlice (s : List Char) (a b : Nat) : List Char := (s.take b).drop a

/-- The `split` function from the source, line for line: trim, scan the
first line, detect the format, pick the payload start, find the first
closing line, slice. -/
def split (content : List Char) : Except Error (Option SplitFrontmatter × List Char) :=
  let content := trimStart content
  match lineSpans content with
  | [] => .ok (none, content)
  | span :: rest =>
    match FrontmatterFormat.detect span.line with
    | none => .ok (none, content)
    | some format =>
      let matter_start : Nat :=
        match format with
        | .Json => span.start
        | .Toml | .Yaml => span.next_start
      match rest.find? (fun sp => sp.line == format.delimiter.2) with
      | some cspan =>
        match format with
        | .Json =>
          .ok (some ⟨format, strSlice content matter_start cspan.next_start⟩,
            content.drop cspan.next_start)
        | .Toml | .Yaml =>
          .ok (some ⟨format, strSlice content matter_start cspan.start⟩,
            content.drop cspan.next_start)
      | none => .error (.AbsentClosingDelimiter format)

/-- Build-time cargo feature set (`json`, `toml`, `yaml`). -/
structure Features where
  json : Bool
  toml : Bool
  yaml : Bool
deriving DecidableEq, Repr

/-- An external serde decoder for one format, as the two-stage pipeline
the source uses: text to intermediate value (syntax), then value to the
caller's target type (shape). -/
structure Decoder (V T : Type) where
  fromStr : List Char → Option V
  fromValue : V → Option T

/-- The `impl Default for SplitFrontmatter` block: the `cfg`-selected default used
when the document has no frontmatter. -/
def SplitFrontmatter.default (feat : Features) : SplitFrontmatter :=
  if feat.json then ⟨.Json, ['{', '}']⟩
  else if feat.toml then ⟨.Toml, []⟩
  else ⟨.Yaml, ['{', '}']⟩

/-- The method `FrontmatterFormat::parse`: dispatch to the format's decoder, or
`DisabledFormat` when the feature is off; a syntax-stage failure maps to
the `Invalid*` error and a shape-stage failure to the `Deserialize*`
error, exactly as in the source. -/
def FrontmatterFormat.parse {Vj Vt Vy T : Type} (feat : Features)
    (dj : Decoder Vj T) (dt : Decoder Vt T) (dy : Decoder Vy T) :
    FrontmatterFormat → List Char → Except Error T
  | .Json, matter_str =>
    if feat.json then
      match dj.fromStr matter_str with
      | none => .error .InvalidJson
      | some v =>
        match dj.fromValue v with
        | none => .error .DeserializeJson
        | some t => .ok t
    else .error (.DisabledFormat .Json)
  | .Toml, matter_str =>
    if feat.toml then
      match dt.fromStr matter_str with
      | none => .error .InvalidToml
      | some v =>
        match dt.fromValue v with
        | none => .error .DeserializeToml
        | some t => .ok t
    else .error (.DisabledFormat .Toml)
  | .Yaml, matter_str =>
    if feat.yaml then
      match dy.fromStr matter_str with
      | none => .error .InvalidYaml
      | some v =>
        match dy.fromValue v with
        | none => .error .DeserializeYaml
        | some t => .ok t
    else .error (.DisabledFormat .Yaml)

/-- The `ParsedFrontmatter` record from the source: note that `format` and
`frontmatter` are plain (non-optional) fields. -/
structure ParsedFrontmatter (T : Type) where
  body : List Char
  format : FrontmatterFormat
  frontmatter : T
deriving DecidableEq, Repr

/-- The public `parse` function from the source: split, substitute the
build default when no frontmatter was found, then decode. -/
def parse {Vj Vt Vy T : Type} (feat : Features)
    (dj : Decoder Vj T) (dt : Decoder Vt T) (dy : Decoder Vy T)
    (content : List Char) : Except Error (ParsedFrontmatter T) :=
  match split content with
  | .error e => .error e
  | .ok (maybe_frontmatter, body) =>
    let fm := maybe_frontmatter.getD (SplitFrontmatter.default feat)
    match FrontmatterFormat.parse feat dj dt dy fm.format fm.matter with
    | .error e => .error e
    | .ok frontmatter => .ok ⟨body, fm.format, frontmatter⟩

/-- A well-formed line terminator sitting at the head of the remaining
buffer `rest`: `\n`, `\r\n`, or a lone `\r` not followed by `\n`. -/
def TermShape (term rest : List Char) : Prop :=
  term = ['\n'] ∨ term = ['\r', '\n'] ∨ (term = ['\r'] ∧ ∀ u, rest ≠ '\n' :: u)

/-- A frontmatter payload: a sequence of complete lines (each terminated
by `\n` or `\r\n`), no line text equal to the closing delimiter. -/
inductive TerminatedPayload (closing : List Char) : List Char → Prop
  | nil : TerminatedPayload closing []
  | cons (line term P : List Char) :
      (∀ c ∈ line, nonTerm c = true) →
      line ≠ closing →
      (term = ['\n'] ∨ term = ['\r', '\n']) →
      TerminatedPayload closing P →
      TerminatedPayload closing (line ++ term ++ P)

/-! ### Line-scanner invariants -/

/-- Spans are contiguous from `p`: each starts where the previous ended. -/
def spansChained : Nat → List LineSpan → Prop
  | _, [] => True
  | p, sp :: rest => sp.start = p ∧ spansChained sp.next_start rest

/-- Well-formedness of a single span over buffer `s`: in-bounds strictly
advancing offsets; the text is the terminator-free chunk sitting at
`start`; and the terminator is `\r\n` (2 chars), a lone `\n` or `\r`
(1 char), or absent at end of buffer. -/
def spanWf (s : List Char) (sp : LineSpan) : Prop :=
  sp.start < sp.next_start ∧
  sp.start + sp.line.length ≤ sp.next_start ∧
  sp.next_start ≤ s.length ∧
  s.drop sp.start = sp.line ++ s.drop (sp.start + sp.line.length) ∧
  (∀ c ∈ sp.line, c ≠ '\n' ∧ c ≠ '\r') ∧
  ((s.drop (sp.start + sp.line.length) = [] ∧
      sp.next_start = sp.start + sp.line.length ∧ sp.next_start = s.length) ∨
    (∃ u, s.drop (sp.start + sp.line.length) = '\r' :: '\n' :: u ∧
      sp.next_start = sp.start + sp.line.length + 2) ∨
    (∃ u, s.drop (sp.start + sp.line.length) = '\n' :: u ∧
      sp.next_start = sp.start + sp.line.length + 1) ∨
    (∃ u, s.drop (sp.start + sp.line.length) = '\r' :: u ∧ (∀ v, u ≠ '\n' :: v) ∧
      sp.next_start = sp.start + sp.line.length + 1))

/-! ### Decode dispatch: error kinds -/

/-- The cargo feature gating a format's decoder. -/
def Features.enabled (feat : Features) : FrontmatterFormat → Bool
  | .Json => feat.json
  | .Toml => feat.toml
  | .Yaml => feat.yaml

/-- Each format's invalid-syntax error kind. -/
def FrontmatterFormat.invalidError : FrontmatterFormat → Error
  | .Json => .InvalidJson
  | .Toml => .InvalidToml
  | .Yaml => .InvalidYaml

/-- Each format's deserialize-mismatch error kind. -/
def FrontmatterFormat.deserializeError : FrontmatterFormat → Error
  | .Json => .DeserializeJson
  | .Toml => .DeserializeToml
  | .Yaml => .DeserializeYaml

/-- All three formats enabled (the crate's default feature set). -/
def featAll : Features := ⟨true, true, true⟩

/-- A decoder accepting only the empty text. -/
def emptyOnlyDecoder : Decoder Unit Unit :=
  ⟨fun m => if m = [] then some () else none, fun _ => some ()⟩

/-- A decoder accepting any text. -/
def anyDecoder : Decoder Unit Unit :=
  ⟨fun _ => some (), fun _ => some ()⟩

/-- The spec's data model for `parse` results (§3/§6): `format` and
`frontmatter` mirrored as `Option` fields, so "no frontmatter" is
representable without substituting anything.  Stated from the spec's
words, for comparison with the source's `ParsedFrontmatter`, whose
fields are not optional. -/
structure ParsedFrontmatterSpec (T : Type) where
  body : List Char
  format : Option FrontmatterFormat
  frontmatter : Option T
deriving DecidableEq, Repr

/-- The spec's wording of `parse` (§6): call `split`; if a format was
detected decode the slice, else return with both options absent. -/
def parseSpec {Vj Vt Vy T : Type} (feat : Features)
    (dj : Decoder Vj T) (dt : Decoder Vt T) (dy : Decoder Vy T)
    (content : List Char) : Except Error (ParsedFrontmatterSpec T) :=
  match split content with
  | .error e => .error e
  | .ok (none, body) => .ok ⟨body, none, none⟩
  | .ok (some fm, body) =>
    match FrontmatterFormat.parse feat dj dt dy fm.format fm.matter with
    | .error e => .error e
    | .ok frontmatter => .ok ⟨body, some fm.format, some frontmatter⟩

/-! ### Totality of `split`: every Rust slice is in range -/

/-- Rust slice `&s[a..b]` with its panic condition made explicit:
`none` exactly when Rust would panic (`a > b` or `b > len`; at `List
Char` granularity every offset is a character boundary). -/
def strSliceChecked (s : List Char) (a b : Nat) : Option (List Char) :=
  if a ≤ b ∧ b ≤ s.length then some (strSlice s a b) else none

/-- Rust slice `&s[a..]` with its panic condition made explicit. -/
def dropChecked (s : List Char) (a : Nat) : Option (List Char) :=
  if a ≤ s.length then some (s.drop a) else none

/-- The function `split` with every Rust slice replaced by its checked version:
`none` means some slice index would have been out of range (a panic). -/
def splitChecked (content : List Char) :
    Option (Except Error (Option SplitFrontmatter × List Char)) :=
  let content := trimStart content
  match lineSpans content with
  | [] => some (.ok (none, content))
  | span :: rest =>
    match FrontmatterFormat.detect span.line with
    | none => some (.ok (none, content))
    | some format =>
      let matter_start : Nat :=
        match format with
        | .Json => span.start
        | .Toml | .Yaml => span.next_start
      match rest.find? (fun sp => sp.line == format.delimiter.2) with
      | some cspan =>
        match format with
        | .Json => do
          let matter ← strSliceChecked content matter_start cspan.next_start
          let body ← dropChecked content cspan.next_start
          some (.ok (some ⟨format, matter⟩, body))
        | .Toml | .Yaml => do
          let matter ← strSliceChecked content matter_start cspan.start
          let body ← dropChecked content cspan.next_start
          some (.ok (some ⟨format, matter⟩, body))
      | none => some (.error (.AbsentClosingDelimiter format))

/-! ### Basic facts about the line scanner -/

lemma length_takeWhile_le (p : Char → Bool) : ∀ l : List Char, (l.takeWhile p).length ≤ l.length
  | [] => Nat.le_refl 0
  | c :: t => by
    rw [List.takeWhile_cons]
    cases p c with
    | true => simpa using length_takeWhile_le p t
    | false => simp

lemma dropWhile_eq_drop_takeWhile (p : Char → Bool) :
    ∀ l : List Char, l.dropWhile p = l.drop (l.takeWhile p).length
  | [] => rfl
  | c :: t => by
    rw [List.takeWhile_cons, List.dropWhile_cons]
    cases hc : p c with
    | true => simpa using dropWhile_eq_drop_takeWhile p t
    | false => simp

lemma nonTerm_false_iff (c : Char) : nonTerm c = false ↔ c = '\n' ∨ c = '\r' := by
  simp only [nonTerm, Bool.not_eq_false', Bool.or_eq_true, beq_iff_eq]

lemma termLen_le_length : ∀ l : List Char, termLen l ≤ l.length
  | [] => by simp [termLen]
  | c :: t => by
    by_cases h1 : c = '\r'
    · subst h1
      cases t with
      | nil => simp [termLen]
      | cons d t' => by_cases hd : d = '\n' <;> simp [termLen, hd]
    · by_cases h2 : c = '\n' <;> simp [termLen, h1, h2]

lemma termLen_pos (c : Char) (t : List Char) (h : nonTerm c = false) : 1 ≤ termLen (c :: t) := by
  rcases (nonTerm_false_iff c).mp h with h' | h' <;> subst h'
  · simp [termLen]
  · cases t with
    | nil => simp [termLen]
    | cons d t' => by_cases hd : d = '\n' <;> simp [termLen, hd]

lemma lt_nextOf (s : List Char) (pos : Nat) (h : pos < s.length) : pos < nextOf s pos := by
  unfold nextOf
  rcases Nat.eq_zero_or_pos (lineOf s pos).length with hL | hL
  · rw [hL]
    cases hd : s.drop pos with
    | nil =>
      have := List.length_drop pos s
      rw [hd] at this
      simp at this
      omega
    | cons c t =>
      have hne : nonTerm c = false := by
        have h0 : (s.drop pos).takeWhile nonTerm = [] := List.length_eq_zero.mp hL
        rw [hd] at h0
        by_contra hcon
        rw [List.takeWhile_cons_of_pos (by simpa using hcon)] at h0
        simp at h0
      have : s.drop (pos + 0) = c :: t := by simpa using hd
      rw [this]
      have := termLen_pos c t hne
      omega
  · omega

lemma nextOf_le (s : List Char) (pos : Nat) (h : pos ≤ s.length) : nextOf s pos ≤ s.length := by
  unfold nextOf
  have h1 : (lineOf s pos).length ≤ s.length - pos := by
    have := length_takeWhile_le nonTerm (s.drop pos)
    rw [List.length_drop] at this
    exact this
  have h2 : termLen (s.drop (pos + (lineOf s pos).length)) ≤
      s.length - (pos + (lineOf s pos).length) := by
    have := termLen_le_length (s.drop (pos + (lineOf s pos).length))
    rw [List.length_drop] at this
    exact this
  omega

lemma lineSpansFuel_congr (s : List Char) :
    ∀ (f1 f2 pos : Nat), s.length - pos ≤ f1 → s.length - pos ≤ f2 →
      lineSpansFuel f1 s pos = lineSpansFuel f2 s pos := by
  intro f1
  induction f1 with
  | zero =>
    intro f2 pos h1 h2
    cases f2 with
    | zero => rfl
    | succ g =>
      simp only [lineSpansFuel]
      rw [if_neg (by omega)]
  | succ f ih =>
    intro f2 pos h1 h2
    cases f2 with
    | zero =>
      simp only [lineSpansFuel]
      rw [if_neg (by omega)]
    | succ g =>
      simp only [lineSpansFuel]
      by_cases hp : pos < s.length
      · rw [if_pos hp, if_pos hp]
        have hnext := lt_nextOf s pos hp
        exact congrArg _ (ih g (nextOf s pos) (by omega) (by omega))
      · rw [if_neg hp, if_neg hp]

lemma lineSpans_eq_lineSpansAt (s : List Char) : lineSpans s = lineSpansAt s 0 := rfl

lemma lineSpansAt_unfold (s : List Char) (pos : Nat) (h : pos < s.length) :
    lineSpansAt s pos =
      ⟨pos, nextOf s pos, lineOf s pos⟩ :: lineSpansAt s (nextOf s pos) := by
  unfold lineSpansAt
  obtain ⟨k, hk⟩ : ∃ k, s.length - pos = k + 1 := ⟨s.length - pos - 1, by omega⟩
  rw [hk]
  simp only [lineSpansFuel, if_pos h]
  have hnext := lt_nextOf s pos h
  exact congrArg _ (lineSpansFuel_congr s k (s.length - nextOf s pos) (nextOf s pos)
    (by omega) (by omega))

lemma lineSpansAt_nil (s : List Char) (pos : Nat) (h : s.length ≤ pos) :
    lineSpansAt s pos = [] := by
  unfold lineSpansAt
  have : s.length - pos = 0 := by omega
  rw [this]
  rfl

/-! ### Scanning a buffer with a known line structure -/

lemma takeWhile_line_term (line : List Char) (c : Char) (rest : List Char)
    (hline : ∀ x ∈ line, nonTerm x = true) (hc : nonTerm c = false) :
    (line ++ c :: rest).takeWhile nonTerm = line := by
  rw [List.takeWhile_append_of_pos hline,
    List.takeWhile_cons_of_neg (by simp [hc]), List.append_nil]

lemma termLen_of_shape (term rest : List Char) (h : TermShape term rest) :
    termLen (term ++ rest) = term.length := by
  rcases h with h | h | ⟨h, hr⟩ <;> subst h
  · simp [termLen]
  · simp [termLen]
  · cases rest with
    | nil => simp [termLen]
    | cons d u =>
      have hd : d ≠ '\n' := fun hdd => (hr u) (by rw [hdd])
      simp [termLen, hd]

lemma TermShape.ne_nil {term rest : List Char} (h : TermShape term rest) : term ≠ [] := by
  rcases h with h | h | ⟨h, _⟩ <;> subst h <;> simp

lemma TermShape.head_term {term rest : List Char} (h : TermShape term rest) :
    ∃ c t, term = c :: t ∧ nonTerm c = false := by
  rcases h with h | h | ⟨h, _⟩ <;> subst h
  · exact ⟨'\n', [], rfl, by simp [nonTerm]⟩
  · exact ⟨'\r', ['\n'], rfl, by simp [nonTerm]⟩
  · exact ⟨'\r', [], rfl, by simp [nonTerm]⟩

/-- Unfolding the scanner over one complete line `line ++ term`. -/
lemma lineSpansAt_cons_line (s : List Char) (pos : Nat) (line term rest : List Char)
    (hline : ∀ x ∈ line, nonTerm x = true)
    (hterm : TermShape term rest)
    (hdrop : s.drop pos = line ++ term ++ rest) :
    lineSpansAt s pos =
      ⟨pos, pos + line.length + term.length, line⟩ ::
        lineSpansAt s (pos + line.length + term.length) := by
  obtain ⟨c, t, hct, hcfail⟩ := hterm.head_term
  have hlt : pos < s.length := by
    rcases Nat.lt_or_ge pos s.length with h | h
    · exact h
    · exfalso
      have hnil : s.drop pos = [] := List.drop_of_length_le h
      rw [hdrop, hct] at hnil
      simp at hnil
  have hlineOf : lineOf s pos = line := by
    unfold lineOf
    rw [hdrop, List.append_assoc, hct, List.cons_append]
    exact takeWhile_line_term line c (t ++ rest) hline hcfail
  have hdrop2 : s.drop (pos + line.length) = term ++ rest := by
    rw [← List.drop_drop, hdrop, List.append_assoc, List.drop_left]
  have hnext : nextOf s pos = pos + line.length + term.length := by
    unfold nextOf
    rw [hlineOf, hdrop2, termLen_of_shape term rest hterm]
  rw [lineSpansAt_unfold s pos hlt, hlineOf, hnext]

/-- Unfolding the scanner over a final unterminated line. -/
lemma lineSpansAt_last_line (s : List Char) (pos : Nat) (line : List Char)
    (hne : line ≠ [])
    (hline : ∀ x ∈ line, nonTerm x = true)
    (hdrop : s.drop pos = line) :
    lineSpansAt s pos = [⟨pos, s.length, line⟩] := by
  have hlt : pos < s.length := by
    rcases Nat.lt_or_ge pos s.length with h | h
    · exact h
    · exact absurd (hdrop.symm.trans (List.drop_of_length_le h)) hne
  have hlen : pos + line.length = s.length := by
    have := List.length_drop pos s
    rw [hdrop] at this
    omega
  have hlineOf : lineOf s pos = line := by
    unfold lineOf
    rw [hdrop]
    exact List.takeWhile_eq_self_iff.mpr hline
  have hdrop2 : s.drop (pos + line.length) = [] := by
    rw [← List.drop_drop, hdrop, List.drop_length]
  have hnext : nextOf s pos = s.length := by
    unfold nextOf
    rw [hlineOf, hdrop2]
    simp [termLen, hlen]
  rw [lineSpansAt_unfold s pos hlt, hlineOf, hnext,
    lineSpansAt_nil s s.length (Nat.le_refl _)]

/-- Scanning a buffer laid out as `payload ++ closing ++ '\n' ++ B`
finds the closing-delimiter line first, right after the payload. -/
lemma find_close_of_payload (s : List Char) (closing : List Char)
    (hcl : ∀ c ∈ closing, nonTerm c = true) :
    ∀ (P : List Char), TerminatedPayload closing P →
      ∀ (pos : Nat) (B : List Char), pos ≤ s.length →
        s.drop pos = P ++ closing ++ '\n' :: B →
        (lineSpansAt s pos).find? (fun sp => sp.line == closing) =
          some ⟨pos + P.length, pos + P.length + closing.length + 1, closing⟩ := by
  intro P hP
  induction hP with
  | nil =>
    intro pos B hpos hdrop
    have hdrop' : s.drop pos = closing ++ ['\n'] ++ B := by simpa using hdrop
    rw [lineSpansAt_cons_line s pos closing ['\n'] B hcl (Or.inl rfl) hdrop']
    rw [List.find?_cons_of_pos _ (by simp)]
    simp
  | cons line term P' hline hne hterm hP' ih =>
    intro pos B hpos hdrop
    have hts : TermShape term (P' ++ closing ++ '\n' :: B) := by
      rcases hterm with h | h
      · exact Or.inl h
      · exact Or.inr (Or.inl h)
    have hdrop' : s.drop pos = line ++ term ++ (P' ++ closing ++ '\n' :: B) := by
      rw [hdrop]
      simp [List.append_assoc]
    rw [lineSpansAt_cons_line s pos line term (P' ++ closing ++ '\n' :: B) hline hts hdrop']
    rw [List.find?_cons_of_neg _ (by simp [hne])]
    have hpos' : pos + line.length + term.length ≤ s.length := by
      have h1 := List.length_drop pos s
      rw [hdrop'] at h1
      simp only [List.length_append, List.length_cons] at h1
      omega
    have hdrop'' : s.drop (pos + line.length + term.length) = P' ++ closing ++ '\n' :: B := by
      have h2 : pos + line.length + term.length = pos + (line ++ term).length := by
        simp [List.length_append, Nat.add_assoc]
      rw [h2, ← List.drop_drop, hdrop', List.drop_left]
    have := ih (pos + line.length + term.length) B hpos' hdrop''
    rw [this]
    simp only [List.length_append, Nat.add_assoc]

/-! ### Detection, trimming and delimiter facts -/

lemma trimStart_cons_of_not_ws (c : Char) (t : List Char) (h : isRustWhitespace c = false) :
    trimStart (c :: t) = c :: t := by
  unfold trimStart
  rw [List.dropWhile_cons_of_neg (by simp [h])]

lemma detect_delim (format : FrontmatterFormat) :
    FrontmatterFormat.detect format.delimiter.1 = some format := by
  cases format <;> decide

lemma detect_none (l : List Char)
    (h1 : l ≠ ['{']) (h2 : l ≠ ['+', '+', '+']) (h3 : l ≠ ['-', '-', '-']) :
    FrontmatterFormat.detect l = none := by
  unfold FrontmatterFormat.detect FrontmatterFormat.VARIANTS
  rw [List.find?_cons_of_neg _ (by simp [FrontmatterFormat.delimiter, h1]),
    List.find?_cons_of_neg _ (by simp [FrontmatterFormat.delimiter, h2]),
    List.find?_cons_of_neg _ (by simp [FrontmatterFormat.delimiter, h3])]
  rfl

lemma delimiter_fst_nonTerm (format : FrontmatterFormat) :
    ∀ c ∈ format.delimiter.1, nonTerm c = true := by
  cases format <;> decide

lemma delimiter_snd_nonTerm (format : FrontmatterFormat) :
    ∀ c ∈ format.delimiter.2, nonTerm c = true := by
  cases format <;> decide

lemma delimiter_fst_head (format : FrontmatterFormat) :
    ∃ c t, format.delimiter.1 = c :: t ∧ isRustWhitespace c = false := by
  cases format
  · exact ⟨'{', [], rfl, by decide⟩
  · exact ⟨'+', ['+', '+'], rfl, by decide⟩
  · exact ⟨'-', ['-', '-'], rfl, by decide⟩

/-! ### Reducing `split` under a detected format -/

/-- With an opening-delimiter first line, `split` is decided entirely by
the first line among the rest whose text equals the closing delimiter. -/
lemma split_reduce (content : List Char) (format : FrontmatterFormat)
    (span : LineSpan) (rest : List LineSpan)
    (hspans : lineSpans (trimStart content) = span :: rest)
    (hopen : span.line = format.delimiter.1) :
    split content =
      match rest.find? (fun sp => sp.line == format.delimiter.2) with
      | some cspan =>
        .ok (some ⟨format,
            match format with
            | .Json => strSlice (trimStart content) span.start cspan.next_start
            | .Toml | .Yaml => strSlice (trimStart content) span.next_start cspan.start⟩,
          (trimStart content).drop cspan.next_start)
      | none => .error (.AbsentClosingDelimiter format) := by
  have hdet : FrontmatterFormat.detect span.line = some format := by
    rw [hopen]
    exact detect_delim format
  simp only [split, hspans, hdet]
  cases hf : rest.find? (fun sp => sp.line == format.delimiter.2) with
  | none => rfl
  | some cspan => cases format <;> rfl

/-- C3: when `split` detects a format and a closing line exists, the
frontmatter slice runs from the start of the opening `{` line through
the end of the closing line's terminator for JSON, and from just past
the opening delimiter line's terminator up to (excluding) the start of
the closing delimiter line for TOML/YAML; the body always starts right
after the closing line's terminator.  `cspan` is the first span after
the opening line whose text equals the closing delimiter. -/
theorem split_slices_of_close (content : List Char) (format : FrontmatterFormat)
    (span cspan : LineSpan) (r1 r2 : List LineSpan)
    (hspans : lineSpans (trimStart content) = span :: (r1 ++ cspan :: r2))
    (hopen : span.line = format.delimiter.1)
    (hbefore : ∀ sp ∈ r1, sp.line ≠ format.delimiter.2)
    (hclose : cspan.line = format.delimiter.2) :
    split content =
      .ok (some ⟨format,
          match format with
          | .Json => strSlice (trimStart content) span.start cspan.next_start
          | .Toml | .Yaml => strSlice (trimStart content) span.next_start cspan.start⟩,
        (trimStart content).drop cspan.next_start) := by
  have h1 : r1.find? (fun sp => sp.line == format.delimiter.2) = none :=
    List.find?_eq_none.mpr (fun sp hsp => by simp [hbefore sp hsp])
  have h2 : (cspan :: r2).find? (fun sp => sp.line == format.delimiter.2) = some cspan :=
    List.find?_cons_of_pos _ (by simp [hclose])
  rw [split_reduce content format span (r1 ++ cspan :: r2) hspans hopen,
    List.find?_append, h1, h2]
  cases format <;> rfl

/-- C5: a detected opening delimiter with no later line equal to the
closing delimiter makes `split` fail with `AbsentClosingDelimiter`
carrying exactly the detected format, and no partial result. -/
theorem split_unclosed (content : List Char) (format : FrontmatterFormat)
    (span : LineSpan) (rest : List LineSpan)
    (hspans : lineSpans (trimStart content) = span :: rest)
    (hopen : span.line = format.delimiter.1)
    (hnoclose : ∀ sp ∈ rest, sp.line ≠ format.delimiter.2) :
    split content = .error (.AbsentClosingDelimiter format) := by
  rw [split_reduce content format span rest hspans hopen,
    List.find?_eq_none.mpr (fun sp hsp => by simp [hnoclose sp hsp])]

/-- C8: the frontmatter block ends at the FIRST later line whose full
text equals the closing delimiter — even if the lines before it (the
intended payload `r1`) are arbitrary; no escaping or nesting exists. -/
theorem split_first_close_wins (content : List Char) (format : FrontmatterFormat)
    (span cspan : LineSpan) (r1 r2 : List LineSpan)
    (hspans : lineSpans (trimStart content) = span :: (r1 ++ cspan :: r2))
    (hopen : span.line = format.delimiter.1)
    (hbefore : ∀ sp ∈ r1, sp.line ≠ format.delimiter.2)
    (hclose : cspan.line = format.delimiter.2) :
    ∃ fm body, split content = .ok (some fm, body) ∧ fm.format = format ∧
      body = (trimStart content).drop cspan.next_start := by
  have h1 : r1.find? (fun sp => sp.line == format.delimiter.2) = none :=
    List.find?_eq_none.mpr (fun sp hsp => by simp [hbefore sp hsp])
  have h2 : (cspan :: r2).find? (fun sp => sp.line == format.delimiter.2) = some cspan :=
    List.find?_cons_of_pos _ (by simp [hclose])
  have hsplit : split content =
      .ok (some ⟨format,
          match format with
          | .Json => strSlice (trimStart content) span.start cspan.next_start
          | .Toml | .Yaml => strSlice (trimStart content) span.next_start cspan.start⟩,
        (trimStart content).drop cspan.next_start) := by
    rw [split_reduce content format span (r1 ++ cspan :: r2) hspans hopen,
      List.find?_append, h1, h2]
    cases format <;> rfl
  exact ⟨_, _, hsplit, rfl, rfl⟩

/-- C4: a document whose first trimmed line is not exactly one of the
three opening delimiters (including the empty document) splits into no
format, no frontmatter, and body equal to the trimmed input verbatim. -/
theorem split_no_open_delimiter (content : List Char)
    (h : ∀ sp ∈ (lineSpans (trimStart content)).take 1,
      sp.line ≠ ['{'] ∧ sp.line ≠ ['+', '+', '+'] ∧ sp.line ≠ ['-', '-', '-']) :
    split content = .ok (none, trimStart content) := by
  cases hs : lineSpans (trimStart content) with
  | nil => simp only [split, hs]
  | cons span rest =>
    obtain ⟨h1, h2, h3⟩ := h span (by rw [hs]; simp)
    have hdet : FrontmatterFormat.detect span.line = none := detect_none _ h1 h2 h3
    simp only [split, hs, hdet]

theorem split_slices_of_close_witness :
    split (("---\nfoo: bar\n---\nhello world").data) =
      .ok (some ⟨FrontmatterFormat.Yaml, ("foo: bar\n").data⟩, ("hello world").data) :=
  split_slices_of_close (("---\nfoo: bar\n---\nhello world").data) .Yaml
    ⟨0, 4, ['-', '-', '-']⟩ ⟨13, 17, ['-', '-', '-']⟩
    [⟨4, 13, ("foo: bar").data⟩] [⟨17, 28, ("hello world").data⟩]
    (by decide) (by decide) (by decide) (by decide)

theorem split_unclosed_witness :
    split (("+++\na=1").data) = .error (.AbsentClosingDelimiter .Toml) :=
  split_unclosed (("+++\na=1").data) .Toml
    ⟨0, 4, ['+', '+', '+']⟩ [⟨4, 7, ['a', '=', '1']⟩]
    (by decide) (by decide) (by decide)

theorem split_first_close_wins_witness :
    ∃ fm body, split (("---\na: 1\n---\n---\nbody").data) = .ok (some fm, body) ∧
      fm.format = FrontmatterFormat.Yaml ∧
      body = (trimStart (("---\na: 1\n---\n---\nbody").data)).drop 13 :=
  split_first_close_wins (("---\na: 1\n---\n---\nbody").data) .Yaml
    ⟨0, 4, ['-', '-', '-']⟩ ⟨9, 13, ['-', '-', '-']⟩
    [⟨4, 9, ("a: 1").data⟩] [⟨13, 17, ['-', '-', '-']⟩, ⟨17, 21, ("body").data⟩]
    (by decide) (by decide) (by decide) (by decide)

theorem split_no_open_delimiter_witness :
    split (("hello world").data) = .ok (none, ("hello world").data) :=
  split_no_open_delimiter (("hello world").data) (by decide)

/-! ### Slicing a decomposed buffer -/

lemma strSlice_of_decomp (u v w : List Char) :
    strSlice (u ++ v ++ w) u.length (u.length + v.length) = v := by
  unfold strSlice
  rw [@List.take_left' Char (u ++ v) w (u.length + v.length) (by simp), List.drop_left]

lemma strSlice_zero (u w : List Char) : strSlice (u ++ w) 0 u.length = u := by
  unfold strSlice
  rw [List.take_left, List.drop_zero]

/-- C2: round-trip.  For any body `B` and any payload `P` made of
complete lines none of which equals the closing delimiter, splitting
`open ++ "\n" ++ P ++ close ++ "\n" ++ B` gives back `body = B` exactly,
and the frontmatter slice equals `P` for TOML/YAML, or the brace-
enclosed content (both delimiter lines included, with the closing
newline) for JSON. -/
theorem split_round_trip (format : FrontmatterFormat) (P B : List Char)
    (hP : TerminatedPayload format.delimiter.2 P) :
    split (format.delimiter.1 ++ '\n' :: (P ++ format.delimiter.2 ++ '\n' :: B)) =
      .ok (some ⟨format,
          match format with
          | .Json => format.delimiter.1 ++ '\n' :: (P ++ format.delimiter.2 ++ ['\n'])
          | .Toml | .Yaml => P⟩,
        B) := by
  obtain ⟨c, t, hct, hcw⟩ := delimiter_fst_head format
  have htrim : trimStart (format.delimiter.1 ++ '\n' :: (P ++ format.delimiter.2 ++ '\n' :: B))
      = format.delimiter.1 ++ '\n' :: (P ++ format.delimiter.2 ++ '\n' :: B) := by
    rw [hct, List.cons_append]
    exact trimStart_cons_of_not_ws c _ hcw
  have hdrop0 : (format.delimiter.1 ++ '\n' :: (P ++ format.delimiter.2 ++ '\n' :: B)).drop 0
      = format.delimiter.1 ++ ['\n'] ++ (P ++ format.delimiter.2 ++ '\n' :: B) := by
    rw [List.drop_zero]
    simp
  have hspans0 := lineSpansAt_cons_line
    (format.delimiter.1 ++ '\n' :: (P ++ format.delimiter.2 ++ '\n' :: B)) 0
    format.delimiter.1 ['\n'] (P ++ format.delimiter.2 ++ '\n' :: B)
    (delimiter_fst_nonTerm format) (Or.inl rfl) hdrop0
  simp only [Nat.zero_add, List.length_cons, List.length_nil] at hspans0
  have hspans : lineSpans (trimStart
        (format.delimiter.1 ++ '\n' :: (P ++ format.delimiter.2 ++ '\n' :: B)))
      = (⟨0, format.delimiter.1.length + 1, format.delimiter.1⟩ : LineSpan) ::
        lineSpansAt (format.delimiter.1 ++ '\n' :: (P ++ format.delimiter.2 ++ '\n' :: B))
          (format.delimiter.1.length + 1) := by
    rw [htrim]
    exact hspans0
  have hposP : format.delimiter.1.length + 1
      ≤ (format.delimiter.1 ++ '\n' :: (P ++ format.delimiter.2 ++ '\n' :: B)).length := by
    simp only [List.length_append, List.length_cons]
    omega
  have hdropP : (format.delimiter.1 ++ '\n' :: (P ++ format.delimiter.2 ++ '\n' :: B)).drop
        (format.delimiter.1.length + 1)
      = P ++ format.delimiter.2 ++ '\n' :: B := by
    have hform : format.delimiter.1 ++ '\n' :: (P ++ format.delimiter.2 ++ '\n' :: B)
        = (format.delimiter.1 ++ ['\n']) ++ (P ++ format.delimiter.2 ++ '\n' :: B) := by
      simp
    rw [hform]
    exact List.drop_left' (by simp)
  have hfind := find_close_of_payload
    (format.delimiter.1 ++ '\n' :: (P ++ format.delimiter.2 ++ '\n' :: B))
    format.delimiter.2 (delimiter_snd_nonTerm format) P hP
    (format.delimiter.1.length + 1) B hposP hdropP
  have hdoc2 : format.delimiter.1 ++ '\n' :: (P ++ format.delimiter.2 ++ '\n' :: B)
      = (format.delimiter.1 ++ '\n' :: (P ++ format.delimiter.2 ++ ['\n'])) ++ B := by
    simp
  have hp2len : (format.delimiter.1 ++ '\n' :: (P ++ format.delimiter.2 ++ ['\n'])).length
      = format.delimiter.1.length + 1 + P.length + format.delimiter.2.length + 1 := by
    simp only [List.length_append, List.length_cons, List.length_nil]
    omega
  have hbody : (format.delimiter.1 ++ '\n' :: (P ++ format.delimiter.2 ++ '\n' :: B)).drop
        (format.delimiter.1.length + 1 + P.length + format.delimiter.2.length + 1) = B := by
    rw [hdoc2, ← hp2len, List.drop_left]
  have hmJ : strSlice (format.delimiter.1 ++ '\n' :: (P ++ format.delimiter.2 ++ '\n' :: B))
        0 (format.delimiter.1.length + 1 + P.length + format.delimiter.2.length + 1)
      = format.delimiter.1 ++ '\n' :: (P ++ format.delimiter.2 ++ ['\n']) := by
    rw [hdoc2, ← hp2len]
    exact strSlice_zero _ B
  have hmTY : strSlice (format.delimiter.1 ++ '\n' :: (P ++ format.delimiter.2 ++ '\n' :: B))
        (format.delimiter.1.length + 1) (format.delimiter.1.length + 1 + P.length) = P := by
    have hdoc3 : format.delimiter.1 ++ '\n' :: (P ++ format.delimiter.2 ++ '\n' :: B)
        = (format.delimiter.1 ++ ['\n']) ++ P ++ (format.delimiter.2 ++ '\n' :: B) := by
      simp
    have hu : (format.delimiter.1 ++ ['\n']).length = format.delimiter.1.length + 1 := by
      simp
    rw [hdoc3, ← hu]
    exact strSlice_of_decomp _ P _
  simp only [Nat.add_assoc, List.append_assoc] at hmJ hmTY hbody
  rw [split_reduce
      (format.delimiter.1 ++ '\n' :: (P ++ format.delimiter.2 ++ '\n' :: B)) format
      ⟨0, format.delimiter.1.length + 1, format.delimiter.1⟩
      (lineSpansAt (format.delimiter.1 ++ '\n' :: (P ++ format.delimiter.2 ++ '\n' :: B))
        (format.delimiter.1.length + 1))
      hspans rfl,
    hfind, htrim]
  cases format <;> simp [Nat.add_assoc, List.append_assoc, hmJ, hmTY, hbody]

theorem split_round_trip_witness :
    split (("---\nfoo: bar\n---\nhello world").data) =
      .ok (some ⟨FrontmatterFormat.Yaml, ("foo: bar\n").data⟩, ("hello world").data) :=
  split_round_trip FrontmatterFormat.Yaml (("foo: bar\n").data) (("hello world").data)
    (TerminatedPayload.cons (("foo: bar").data) ['\n'] [] (by decide) (by decide)
      (Or.inl rfl) TerminatedPayload.nil)

lemma nonTerm_true_iff (c : Char) : nonTerm c = true ↔ c ≠ '\n' ∧ c ≠ '\r' := by
  simp [nonTerm]

lemma drop_lineOf (s : List Char) (pos : Nat) :
    s.drop pos = lineOf s pos ++ s.drop (pos + (lineOf s pos).length) := by
  have h1 := List.takeWhile_append_dropWhile nonTerm (s.drop pos)
  have h2 : (s.drop pos).dropWhile nonTerm = s.drop (pos + (lineOf s pos).length) := by
    rw [dropWhile_eq_drop_takeWhile, List.drop_drop]
    rfl
  rw [← h2]
  exact h1.symm

lemma spanWf_head (s : List Char) (pos : Nat) (h : pos < s.length) :
    spanWf s ⟨pos, nextOf s pos, lineOf s pos⟩ := by
  have hdecomp := drop_lineOf s pos
  have hterm := List.head?_dropWhile_not nonTerm (s.drop pos)
  have hdw : (s.drop pos).dropWhile nonTerm = s.drop (pos + (lineOf s pos).length) := by
    rw [dropWhile_eq_drop_takeWhile, List.drop_drop]
    rfl
  rw [hdw] at hterm
  have hlt := lt_nextOf s pos h
  have hle := nextOf_le s pos (Nat.le_of_lt h)
  have hNdef : nextOf s pos
      = pos + (lineOf s pos).length + termLen (s.drop (pos + (lineOf s pos).length)) := rfl
  refine ⟨hlt, ?_, hle, hdecomp, ?_, ?_⟩
  · show pos + (lineOf s pos).length ≤ nextOf s pos
    rw [hNdef]
    omega
  · intro c hc
    exact (nonTerm_true_iff c).mp (List.mem_takeWhile_imp hc)
  · cases hd : s.drop (pos + (lineOf s pos).length) with
    | nil =>
      have hlen := List.length_drop (pos + (lineOf s pos).length) s
      rw [hd] at hlen
      simp only [List.length_nil] at hlen
      have hN : nextOf s pos = pos + (lineOf s pos).length := by
        rw [hNdef, hd]
        simp [termLen]
      exact Or.inl ⟨rfl, hN, show nextOf s pos = s.length by omega⟩
    | cons c u =>
      rw [hd] at hterm
      simp only [List.head?_cons] at hterm
      rcases (nonTerm_false_iff c).mp hterm with hc | hc <;> subst hc
      · refine Or.inr (Or.inr (Or.inl ⟨u, rfl, ?_⟩))
        show nextOf s pos = pos + (lineOf s pos).length + 1
        rw [hNdef, hd]
        simp [termLen]
      · cases u with
        | nil =>
          refine Or.inr (Or.inr (Or.inr ⟨[], rfl, fun v => by simp, ?_⟩))
          show nextOf s pos = pos + (lineOf s pos).length + 1
          rw [hNdef, hd]
          simp [termLen]
        | cons d u' =>
          by_cases hdn : d = '\n'
          · subst hdn
            refine Or.inr (Or.inl ⟨u', rfl, ?_⟩)
            show nextOf s pos = pos + (lineOf s pos).length + 2
            rw [hNdef, hd]
            simp [termLen]
          · refine Or.inr (Or.inr (Or.inr ⟨d :: u', rfl, ?_, ?_⟩))
            · intro v hv
              rw [List.cons.injEq] at hv
              exact hdn hv.1
            · show nextOf s pos = pos + (lineOf s pos).length + 1
              rw [hNdef, hd]
              simp [termLen, hdn]

lemma lineSpansFuel_wf (s : List Char) :
    ∀ (fuel pos : Nat), s.length - pos ≤ fuel → pos ≤ s.length →
      spansChained pos (lineSpansFuel fuel s pos) ∧
      (∀ sp ∈ lineSpansFuel fuel s pos, spanWf s sp) ∧
      (lineSpansFuel fuel s pos = [] ↔ s.length ≤ pos) ∧
      (∀ sp, (lineSpansFuel fuel s pos).getLast? = some sp → sp.next_start = s.length) := by
  intro fuel
  induction fuel with
  | zero =>
    intro pos hf hp
    refine ⟨trivial, by simp [lineSpansFuel], by simp [lineSpansFuel]; omega,
      by simp [lineSpansFuel]⟩
  | succ f ih =>
    intro pos hf hp
    by_cases hlt : pos < s.length
    · have hunf : lineSpansFuel (f + 1) s pos
          = ⟨pos, nextOf s pos, lineOf s pos⟩ :: lineSpansFuel f s (nextOf s pos) := by
        simp [lineSpansFuel, hlt]
      have hnextlt := lt_nextOf s pos hlt
      have hnextle := nextOf_le s pos hp
      obtain ⟨ihc, ihm, ihe, ihl⟩ := ih (nextOf s pos) (by omega) hnextle
      refine ⟨?_, ?_, ?_, ?_⟩
      · rw [hunf]
        exact ⟨rfl, ihc⟩
      · rw [hunf]
        intro sp hsp
        rcases List.mem_cons.mp hsp with hsp | hsp
        · subst hsp
          exact spanWf_head s pos hlt
        · exact ihm sp hsp
      · rw [hunf]
        constructor
        · intro hcon
          exact absurd hcon (by simp)
        · intro hcon
          omega
      · rw [hunf]
        intro sp hsp
        cases htail : lineSpansFuel f s (nextOf s pos) with
        | nil =>
          rw [htail] at hsp
          rw [List.getLast?_singleton] at hsp
          have hempty : s.length ≤ nextOf s pos := ihe.mp htail
          have hspeq : sp = ⟨pos, nextOf s pos, lineOf s pos⟩ := (Option.some.inj hsp).symm
          rw [hspeq]
          show nextOf s pos = s.length
          omega
        | cons y ys =>
          rw [htail] at hsp
          rw [List.getLast?_cons_cons] at hsp
          apply ihl
          rw [htail]
          exact hsp
    · have hunf : lineSpansFuel (f + 1) s pos = [] := by
        simp [lineSpansFuel, hlt]
      rw [hunf]
      refine ⟨trivial, by intro sp hsp; simp at hsp, ?_, by intro sp hsp; simp at hsp⟩
      constructor
      · intro _
        omega
      · intro _
        rfl

/-- C6: the line scanner's spans are (finitely many,) contiguous from
offset `0`, strictly increasing and in-bounds, each span's text is the
terminator-free chunk at its start (`start ≤ start + text.length ≤
next_start`), a `\r\n` pair is one 2-char terminator while a lone `\r`
or `\n` is a 1-char terminator, an unterminated final line ends at the
buffer length, the spans cover the whole buffer (empty only for the
empty buffer), and the final span's `next_start` equals the length. -/
theorem lineSpans_spec (s : List Char) :
    spansChained 0 (lineSpans s) ∧
    (∀ sp ∈ lineSpans s, spanWf s sp) ∧
    (lineSpans s = [] ↔ s = []) ∧
    (∀ sp, (lineSpans s).getLast? = some sp → sp.next_start = s.length) := by
  obtain ⟨h1, h2, h3, h4⟩ := lineSpansFuel_wf s s.length 0 (by omega) (by omega)
  refine ⟨h1, h2, ?_, h4⟩
  rw [show lineSpans s = lineSpansFuel s.length s 0 from rfl, h3]
  constructor
  · intro hn
    exact List.length_eq_zero.mp (by omega)
  · intro hn
    rw [hn]
    simp

theorem lineSpans_spec_witness :
    spansChained 0 (lineSpans (("a\r\nb\rc\nd").data)) ∧
    (∀ sp ∈ lineSpans (("a\r\nb\rc\nd").data), spanWf (("a\r\nb\rc\nd").data) sp) ∧
    (lineSpans (("a\r\nb\rc\nd").data) = [] ↔ ("a\r\nb\rc\nd").data = []) ∧
    (∀ sp, (lineSpans (("a\r\nb\rc\nd").data)).getLast? = some sp →
      sp.next_start = ("a\r\nb\rc\nd").data.length) :=
  lineSpans_spec (("a\r\nb\rc\nd").data)

/-- C7: for every enabled format, the decode step of `parse` keeps the
two failure kinds apart: the invalid-syntax kind occurs exactly when
the format's syntax stage rejects the text, and the deserialize-
mismatch kind exactly when the syntax stage accepts but the shape stage
rejects; the two kinds are distinct errors, never collapsed. -/
theorem decode_error_kinds {Vj Vt Vy T : Type} (feat : Features)
    (dj : Decoder Vj T) (dt : Decoder Vt T) (dy : Decoder Vy T)
    (format : FrontmatterFormat) (matter_str : List Char)
    (henabled : feat.enabled format = true) :
    (FrontmatterFormat.parse feat dj dt dy format matter_str = .error format.invalidError ↔
      (match format with
        | .Json => dj.fromStr matter_str = none
        | .Toml => dt.fromStr matter_str = none
        | .Yaml => dy.fromStr matter_str = none)) ∧
    (FrontmatterFormat.parse feat dj dt dy format matter_str = .error format.deserializeError ↔
      (match format with
        | .Json => ∃ v, dj.fromStr matter_str = some v ∧ dj.fromValue v = none
        | .Toml => ∃ v, dt.fromStr matter_str = some v ∧ dt.fromValue v = none
        | .Yaml => ∃ v, dy.fromStr matter_str = some v ∧ dy.fromValue v = none)) ∧
    format.invalidError ≠ format.deserializeError := by
  cases format
  · simp only [Features.enabled] at henabled
    simp only [FrontmatterFormat.parse, henabled, if_true,
      FrontmatterFormat.invalidError, FrontmatterFormat.deserializeError]
    refine ⟨?_, ?_, by decide⟩
    all_goals
      cases hs : dj.fromStr matter_str with
      | none => simp
      | some v =>
        cases hv : dj.fromValue v with
        | none => simp [hv]
        | some t => simp [hv]
  · simp only [Features.enabled] at henabled
    simp only [FrontmatterFormat.parse, henabled, if_true,
      FrontmatterFormat.invalidError, FrontmatterFormat.deserializeError]
    refine ⟨?_, ?_, by decide⟩
    all_goals
      cases hs : dt.fromStr matter_str with
      | none => simp
      | some v =>
        cases hv : dt.fromValue v with
        | none => simp [hv]
        | some t => simp [hv]
  · simp only [Features.enabled] at henabled
    simp only [FrontmatterFormat.parse, henabled, if_true,
      FrontmatterFormat.invalidError, FrontmatterFormat.deserializeError]
    refine ⟨?_, ?_, by decide⟩
    all_goals
      cases hs : dy.fromStr matter_str with
      | none => simp
      | some v =>
        cases hv : dy.fromValue v with
        | none => simp [hv]
        | some t => simp [hv]

theorem decode_error_kinds_witness :
    (FrontmatterFormat.parse featAll emptyOnlyDecoder emptyOnlyDecoder emptyOnlyDecoder
        FrontmatterFormat.Json ['x'] = .error FrontmatterFormat.Json.invalidError ↔
      emptyOnlyDecoder.fromStr ['x'] = none) ∧
    (FrontmatterFormat.parse featAll emptyOnlyDecoder emptyOnlyDecoder emptyOnlyDecoder
        FrontmatterFormat.Json ['x'] = .error FrontmatterFormat.Json.deserializeError ↔
      ∃ v, emptyOnlyDecoder.fromStr ['x'] = some v ∧ emptyOnlyDecoder.fromValue v = none) ∧
    FrontmatterFormat.Json.invalidError ≠ FrontmatterFormat.Json.deserializeError :=
  decode_error_kinds featAll emptyOnlyDecoder emptyOnlyDecoder emptyOnlyDecoder
    FrontmatterFormat.Json ['x'] rfl

/-! ### `parse` on documents without frontmatter -/

/-- Shared helper: when `split` finds no frontmatter, `parse` decodes
the build-default `SplitFrontmatter` and reports its format. -/
lemma parse_default_of_none {Vj Vt Vy T : Type} (feat : Features)
    (dj : Decoder Vj T) (dt : Decoder Vt T) (dy : Decoder Vy T)
    (content body : List Char)
    (hsplit : split content = .ok (none, body)) :
    parse feat dj dt dy content =
      (FrontmatterFormat.parse feat dj dt dy (SplitFrontmatter.default feat).format
          (SplitFrontmatter.default feat).matter).map
        (fun fmv => ⟨body, (SplitFrontmatter.default feat).format, fmv⟩) := by
  cases hp : FrontmatterFormat.parse feat dj dt dy (SplitFrontmatter.default feat).format
      (SplitFrontmatter.default feat).matter with
  | error e => simp only [parse, hsplit, Option.getD_none, hp, Except.map]
  | ok fmv => simp only [parse, hsplit, Option.getD_none, hp, Except.map]

/-- C9: on a document without frontmatter, `parse` substitutes a
build-configuration-dependent default before decoding: with `json`
enabled it decodes the text `{}` as JSON and reports `format = Json`;
with `json` off and `toml` on it decodes the empty string as TOML and
reports `format = Toml`; with only `yaml` on it decodes `{}` as YAML
and reports `format = Yaml` — so a successful parse of a
frontmatter-free document always names a format the document never
contained. -/
theorem parse_default_substitution {Vj Vt Vy T : Type} (feat : Features)
    (dj : Decoder Vj T) (dt : Decoder Vt T) (dy : Decoder Vy T)
    (content body : List Char)
    (hsplit : split content = .ok (none, body)) :
    (feat.json = true →
      parse feat dj dt dy content =
        (FrontmatterFormat.parse feat dj dt dy FrontmatterFormat.Json ['{', '}']).map
          (fun fmv => ⟨body, FrontmatterFormat.Json, fmv⟩)) ∧
    (feat.json = false → feat.toml = true →
      parse feat dj dt dy content =
        (FrontmatterFormat.parse feat dj dt dy FrontmatterFormat.Toml []).map
          (fun fmv => ⟨body, FrontmatterFormat.Toml, fmv⟩)) ∧
    (feat.json = false → feat.toml = false → feat.yaml = true →
      parse feat dj dt dy content =
        (FrontmatterFormat.parse feat dj dt dy FrontmatterFormat.Yaml ['{', '}']).map
          (fun fmv => ⟨body, FrontmatterFormat.Yaml, fmv⟩)) := by
  refine ⟨?_, ?_, ?_⟩
  · intro hj
    have hdef : SplitFrontmatter.default feat = ⟨.Json, ['{', '}']⟩ := by
      simp [SplitFrontmatter.default, hj]
    have h := parse_default_of_none feat dj dt dy content body hsplit
    rw [hdef] at h
    exact h
  · intro hj ht
    have hdef : SplitFrontmatter.default feat = ⟨.Toml, []⟩ := by
      simp [SplitFrontmatter.default, hj, ht]
    have h := parse_default_of_none feat dj dt dy content body hsplit
    rw [hdef] at h
    exact h
  · intro hj ht _
    have hdef : SplitFrontmatter.default feat = ⟨.Yaml, ['{', '}']⟩ := by
      simp [SplitFrontmatter.default, hj, ht]
    have h := parse_default_of_none feat dj dt dy content body hsplit
    rw [hdef] at h
    exact h

theorem parse_default_substitution_witness :
    (featAll.json = true →
      parse featAll anyDecoder anyDecoder anyDecoder (("hello world").data) =
        (FrontmatterFormat.parse featAll anyDecoder anyDecoder anyDecoder
            FrontmatterFormat.Json ['{', '}']).map
          (fun fmv => ⟨("hello world").data, FrontmatterFormat.Json, fmv⟩)) ∧
    (featAll.json = false → featAll.toml = true →
      parse featAll anyDecoder anyDecoder anyDecoder (("hello world").data) =
        (FrontmatterFormat.parse featAll anyDecoder anyDecoder anyDecoder
            FrontmatterFormat.Toml []).map
          (fun fmv => ⟨("hello world").data, FrontmatterFormat.Toml, fmv⟩)) ∧
    (featAll.json = false → featAll.toml = false → featAll.yaml = true →
      parse featAll anyDecoder anyDecoder anyDecoder (("hello world").data) =
        (FrontmatterFormat.parse featAll anyDecoder anyDecoder anyDecoder
            FrontmatterFormat.Yaml ['{', '}']).map
          (fun fmv => ⟨("hello world").data, FrontmatterFormat.Yaml, fmv⟩)) :=
  parse_default_substitution featAll anyDecoder anyDecoder anyDecoder
    (("hello world").data) (("hello world").data) rfl

/-- C1 counterexample: on `"hello world"` (no frontmatter detected) the
source's `parse` succeeds with `format = Json` — a present, fabricated
format — whereas under the spec's optional-fields reading the result
would have `format` and `frontmatter` absent.  The source's
`ParsedFrontmatter` cannot represent absence at all. -/
theorem parse_optional_absent_counterexample :
    split (("hello world").data) = .ok (none, ("hello world").data) ∧
    parse featAll anyDecoder anyDecoder anyDecoder (("hello world").data) =
      .ok ⟨("hello world").data, FrontmatterFormat.Json, ()⟩ ∧
    parseSpec featAll anyDecoder anyDecoder anyDecoder (("hello world").data) =
      .ok ⟨("hello world").data, none, none⟩ :=
  ⟨rfl, rfl, rfl⟩

/-- C1 (amended): for a document without detected frontmatter, `parse`
cannot report absence: it substitutes the build default, and with the
`json` feature enabled it reports `format = Json` with the frontmatter
decoded from the substituted text `{}`. -/
theorem parse_no_frontmatter_default {Vj Vt Vy T : Type} (feat : Features)
    (dj : Decoder Vj T) (dt : Decoder Vt T) (dy : Decoder Vy T)
    (content body : List Char)
    (hsplit : split content = .ok (none, body)) (hj : feat.json = true) :
    parse feat dj dt dy content =
      (FrontmatterFormat.parse feat dj dt dy FrontmatterFormat.Json ['{', '}']).map
        (fun fmv => ⟨body, FrontmatterFormat.Json, fmv⟩) := by
  have hdef : SplitFrontmatter.default feat = ⟨.Json, ['{', '}']⟩ := by
    simp [SplitFrontmatter.default, hj]
  have h := parse_default_of_none feat dj dt dy content body hsplit
  rw [hdef] at h
  exact h

theorem parse_no_frontmatter_default_witness :
    parse featAll anyDecoder anyDecoder anyDecoder [] =
      (FrontmatterFormat.parse featAll anyDecoder anyDecoder anyDecoder
          FrontmatterFormat.Json ['{', '}']).map
        (fun fmv => ⟨[], FrontmatterFormat.Json, fmv⟩) :=
  parse_no_frontmatter_default featAll anyDecoder anyDecoder anyDecoder [] [] rfl rfl

/-- The scanner's spans are chained and well formed (helper packaging of
the fuel-level invariant at the `lineSpans` entry point). -/
lemma lineSpans_wf (s : List Char) :
    spansChained 0 (lineSpans s) ∧ (∀ sp ∈ lineSpans s, spanWf s sp) := by
  obtain ⟨h1, h2, _, _⟩ := lineSpansFuel_wf s s.length 0 (by omega) (by omega)
  exact ⟨h1, h2⟩

/-- In a chained list of spans whose offsets advance, every span starts
at or after the chain's base offset. -/
lemma chained_le (p : Nat) (l : List LineSpan) (hch : spansChained p l)
    (hmono : ∀ sp ∈ l, sp.start ≤ sp.next_start) : ∀ sp ∈ l, p ≤ sp.start := by
  induction l generalizing p with
  | nil =>
    intro sp hsp
    cases hsp
  | cons a t ih =>
    obtain ⟨ha, hrest⟩ := hch
    intro sp hsp
    rcases List.mem_cons.mp hsp with hsp | hsp
    · subst hsp
      omega
    · have h1 := ih a.next_start hrest (fun x hx => hmono x (List.mem_cons_of_mem a hx)) sp hsp
      have h2 := hmono a (List.mem_cons_self a t)
      omega

/-- C10: `split` is total and panic-free: running it with every Rust
slice replaced by its bounds-checked version never hits an
out-of-range index — the checked run always returns `split`'s result.
(At `List Char` granularity every offset is a character boundary, so
the boundary half of the Rust panic condition is inherent.) -/
theorem splitChecked_total (content : List Char) :
    splitChecked content = some (split content) := by
  obtain ⟨hch, hwf⟩ := lineSpans_wf (trimStart content)
  cases hs : lineSpans (trimStart content) with
  | nil => simp only [splitChecked, split, hs]
  | cons span rest =>
    rw [hs] at hch hwf
    cases hd : FrontmatterFormat.detect span.line with
    | none => simp only [splitChecked, split, hs, hd]
    | some format =>
      cases hf : rest.find? (fun sp => sp.line == format.delimiter.2) with
      | none => simp only [splitChecked, split, hs, hd, hf]
      | some cspan =>
        obtain ⟨hstart0, hchrest⟩ := hch
        have hmem : cspan ∈ rest := List.mem_of_find?_eq_some hf
        have hwf_cspan := hwf cspan (List.mem_cons_of_mem span hmem)
        have hwf_span := hwf span (List.mem_cons_self span rest)
        have hc_lt : cspan.start < cspan.next_start := hwf_cspan.1
        have hc_le : cspan.next_start ≤ (trimStart content).length := hwf_cspan.2.2.1
        have hs_le : span.next_start ≤ cspan.start :=
          chained_le span.next_start rest hchrest
            (fun sp hsp => Nat.le_of_lt (hwf sp (List.mem_cons_of_mem span hsp)).1)
            cspan hmem
        cases format
        · have hb1 : span.start ≤ cspan.next_start := by omega
          simp [splitChecked, split, hs, hd, hf, strSliceChecked, dropChecked, hb1, hc_le]
        · have hb1 : span.next_start ≤ cspan.start := hs_le
          have hb2 : cspan.start ≤ (trimStart content).length := by omega
          simp [splitChecked, split, hs, hd, hf, strSliceChecked, dropChecked, hb1, hb2, hc_le]
        · have hb1 : span.next_start ≤ cspan.start := hs_le
          have hb2 : cspan.start ≤ (trimStart content).length := by omega
          simp [splitChecked, split, hs, hd, hf, strSliceChecked, dropChecked, hb1, hb2, hc_le]

end MarkdownFrontmatter
